import Mathlib

/-!
Verification of the `ulys` identifier library: a shallow embedding of the
Base32 codec (`src/base32.rs`), the identifier core (`src/lib.rs`), the
time-based construction (`src/time.rs`) and the monotonic generator
(`src/generator.rs`), together with proofs of the specified properties.

Machine integers (`u128`, `u64`, `u16`, `u8`) are embedded as `Nat`, with
explicit `% 2 ^ w` at the points where the Rust code can wrap or truncate.
Byte strings are embedded as `List Nat` of byte values.
-/

namespace Ulys

/-- `ULYS_LEN`: length of a string-encoded Ulys (`base32.rs` line 4). -/
def ULYS_LEN : Nat := 26

/-- `ALPHABET`: the 32-byte table `b"0123456789abcdefghjkmnpqrstvwxyz"`
(`base32.rs` line 6), given by its ASCII byte values. -/
def ALPHABET : List Nat :=
  [48, 49, 50, 51, 52, 53, 54, 55, 56, 57,
   97, 98, 99, 100, 101, 102, 103, 104, 106, 107,
   109, 110, 112, 113, 114, 115, 116, 118, 119, 120, 121, 122]

/-- `NO_VALUE` sentinel (`base32.rs` line 8). -/
def NO_VALUE : Nat := 255

/-- `LOOKUP`: the 256-entry reverse lookup table (`base32.rs` lines 9-23),
transcribed value for value. -/
def LOOKUP : List Nat :=
  [255, 255, 255, 255, 255, 255, 255, 255, 255, 255, 255, 255, 255, 255, 255, 255, 255, 255, 255,
   255, 255, 255, 255, 255, 255, 255, 255, 255, 255, 255, 255, 255, 255, 255, 255, 255, 255, 255,
   255, 255, 255, 255, 255, 255, 255, 255, 255, 255, 0, 1, 2, 3, 4, 5, 6, 7, 8,
   9, 255, 255, 255, 255, 255, 255, 255, 255, 255, 255, 255, 255, 255, 255, 255, 255, 255, 255,
   255, 255, 255, 255, 255, 255, 255, 255, 255, 255, 255, 255, 255, 255, 255, 255, 255, 255, 255,
   255, 255, 10, 11, 12, 13, 14, 15, 16, 17, 255, 18, 19, 255, 20, 21, 255, 22, 23,
   24, 25, 26, 255, 27, 28, 29, 30, 31, 255, 255, 255, 255, 255, 255, 10, 11, 12, 13,
   14, 15, 16, 17, 255, 18, 19, 255, 20, 21, 255, 22, 23, 24, 25, 26, 255, 27, 28,
   29, 30, 31, 255, 255, 255, 255, 255, 255, 255, 255, 255, 255, 255, 255, 255, 255, 255, 255,
   255, 255, 255, 255, 255, 255, 255, 255, 255, 255, 255, 255, 255, 255, 255, 255, 255, 255, 255,
   255, 255, 255, 255, 255, 255, 255, 255, 255, 255, 255, 255, 255, 255, 255, 255, 255, 255, 255,
   255, 255, 255, 255, 255, 255, 255, 255, 255, 255, 255, 255, 255, 255, 255, 255, 255, 255, 255,
   255, 255, 255, 255, 255, 255, 255, 255, 255, 255, 255, 255, 255, 255, 255, 255, 255, 255, 255,
   255, 255, 255, 255, 255, 255, 255, 255, 255]

/-- The table lookup `LOOKUP[b as usize]` for a byte `b`
(out-of-range indices, impossible for a `u8`, give the sentinel). -/
def lookupByte (b : Nat) : Nat := LOOKUP.getD b NO_VALUE

/-- The loop of `encode_to_array` (`base32.rs` lines 83-86): iteration `i`
writes `ALPHABET[(value & 0x1f) as usize]` into `buffer[ULYS_LEN - 1 - i]`
and then shifts `value` right by 5.  `encodeLoop value n` is the buffer
contents produced by `n` iterations (positions `ULYS_LEN - n` to
`ULYS_LEN - 1`). -/
def encodeLoop : Nat → Nat → List Nat
  | _, 0 => []
  | value, n + 1 => encodeLoop (value >>> 5) n ++ [ALPHABET.getD (value &&& 0x1f) 0]

/-- `encode_to_array` (`base32.rs` lines 80-87): the 26-byte buffer holding
the Base32 encoding of `value`. -/
def encode_to_array (value : Nat) : List Nat := encodeLoop value ULYS_LEN

/-- `DecodeError` (`base32.rs` lines 100-105). -/
inductive DecodeError
  | InvalidLength
  | InvalidChar
deriving DecidableEq

/-- The loop of `decode` (`base32.rs` lines 130-140): each byte is mapped
through `LOOKUP`; a sentinel hit aborts with `InvalidChar`, otherwise the
accumulator becomes `(value << 5) | val` in `u128` arithmetic. -/
def decodeLoop : List Nat → Nat → Except DecodeError Nat
  | [], value => Except.ok value
  | b :: rest, value =>
    let val := lookupByte b
    if val = NO_VALUE then Except.error DecodeError.InvalidChar
    else decodeLoop rest (((value <<< 5) % 2 ^ 128) ||| val)

/-- `decode` (`base32.rs` lines 120-143): length check, then the lookup loop
starting from 0. -/
def decode (encoded : List Nat) : Except DecodeError Nat :=
  if encoded.length ≠ ULYS_LEN then Except.error DecodeError.InvalidLength
  else decodeLoop encoded 0

/-- `Ulys::TIME_BITS` (`lib.rs` line 81). -/
def TIME_BITS : Nat := 48

/-- `Ulys::RAND_BITS` (`lib.rs` line 83). -/
def RAND_BITS : Nat := 80

/-- `Ulys::from_parts` (`lib.rs` lines 99-103): mask the timestamp to 48
bits and the randomness to 80 bits, then pack
`(time_part << 80) | rand_part`. -/
def from_parts (timestamp_ms : Nat) (random : Nat) : Nat :=
  let time_part := timestamp_ms &&& (2 ^ TIME_BITS - 1)
  let rand_part := random &&& (2 ^ RAND_BITS - 1)
  (time_part <<< RAND_BITS) ||| rand_part

/-- `Ulys::timestamp_ms` (`lib.rs` lines 161-163): `(self.0 >> 80) as u64`. -/
def timestamp_ms (u : Nat) : Nat := (u >>> RAND_BITS) % 2 ^ 64

/-- `Ulys::random` (`lib.rs` lines 177-179): `self.0 & bitmask!(80)`. -/
def random (u : Nat) : Nat := u &&& (2 ^ RAND_BITS - 1)

/-- `MAX_RANDOM` constant inside `Ulys::increment` (`lib.rs` line 259). -/
def MAX_RANDOM : Nat := 2 ^ RAND_BITS - 1

/-- `Ulys::increment` (`lib.rs` lines 258-266): `None` when the low 80 bits
are all ones, otherwise `Some(self.0 + 1)` (`u128` addition). -/
def increment (u : Nat) : Option Nat :=
  if u &&& MAX_RANDOM = MAX_RANDOM then none else some ((u + 1) % 2 ^ 128)

/-- The milliseconds-since-epoch computation
`datetime.duration_since(SystemTime::UNIX_EPOCH).unwrap_or(Duration::ZERO).as_millis()`
(`time.rs` lines 69-72 and `generator.rs` lines 127-130).  A datetime is
embedded as a signed number of milliseconds relative to the epoch;
`duration_since` fails for pre-epoch times and the failure is replaced by
the zero duration, so the result clamps negatives to 0. -/
def nowMs (datetime : Int) : Nat := datetime.toNat

/-- `Ulys::from_datetime_with_source` (`time.rs` lines 65-78): the random
source's `gen::<u16>()` and `gen::<u64>()` draws are passed as `r16` and
`r64`.  `msb = timebits << 16 | u64::from(r16)` in `u64` arithmetic, then
`Ulys::from((msb, lsb))` packs `u128::from(msb) << 64 | u128::from(lsb)`
(`lib.rs` lines 315-319). -/
def from_datetime_with_source (datetime : Int) (r16 r64 : Nat) : Nat :=
  let timestamp := nowMs datetime
  let timebits := timestamp &&& (2 ^ TIME_BITS - 1)
  let msb := ((timebits <<< 16) ||| r16) % 2 ^ 64
  let lsb := r64
  (msb <<< 64) ||| lsb

/-- `Generator` (`generator.rs` lines 8-10): a single field holding the
previously issued identifier. -/
structure Generator where
  previous : Nat
deriving DecidableEq

/-- `MonotonicError` (`generator.rs` lines 154-157). -/
inductive MonotonicError
  | Overflow
deriving DecidableEq

/-- `Generator::new` (`generator.rs` lines 26-30): previous is `Ulys::nil()`. -/
def Generator.new : Generator := ⟨0⟩

/-- `Generator::generate_from_datetime_with_source` (`generator.rs` lines
116-143).  The mutable receiver is made explicit: the result pairs the
returned `Result` with the generator state after the call. -/
def Generator.generate_from_datetime_with_source (g : Generator) (datetime : Int)
    (r16 r64 : Nat) : Except MonotonicError Nat × Generator :=
  let last_ms := timestamp_ms g.previous
  if nowMs datetime ≤ last_ms then
    match increment g.previous with
    | some next => (Except.ok next, ⟨next⟩)
    | none => (Except.error MonotonicError.Overflow, g)
  else
    let next := from_datetime_with_source datetime r16 r64
    (Except.ok next, ⟨next⟩)

/-- Spec-level predicate: `b` is a character of the Base32 alphabet,
case-insensitively — either one of the (lowercase) alphabet bytes, or the
uppercase form of one of its letters. -/
def isAlphabetChar (b : Nat) : Bool :=
  ALPHABET.contains b ||
    (ALPHABET.map (fun c => if 97 ≤ c then c - 32 else c)).contains b

/-- Spec-level byte lowercasing: ASCII uppercase letters map to lowercase,
all other bytes are unchanged. -/
def toLowerByte (b : Nat) : Nat := if 65 ≤ b ∧ b ≤ 90 then b + 32 else b

/-- The value accumulated by folding base-32 digits most-significant first. -/
def accVal (s : List Nat) (a : Nat) : Nat := s.foldl (fun acc d => acc * 32 + d) a

end Ulys

deriving instance DecidableEq for Except

namespace Ulys

set_option maxRecDepth 10000

theorem and_31 (v : Nat) : v &&& 31 = v % 32 :=
  Nat.and_pow_two_sub_one_eq_mod v 5

theorem mod32_lt (v : Nat) : v % 32 < 2 ^ 5 := by
  have := Nat.mod_lt v (show 0 < 32 by norm_num)
  norm_num
  omega

theorem two_pow_128_lt_32_pow_26 : (2 : Nat) ^ 128 < 32 ^ 26 := by
  rw [show (32 : Nat) = 2 ^ 5 by norm_num, ← pow_mul]
  exact Nat.pow_lt_pow_right (by norm_num) (by norm_num)

theorem shiftRight_5 (v : Nat) : v >>> 5 = v / 32 :=
  Nat.shiftRight_eq_div_pow v 5

theorem encodeLoop_length (v n : Nat) : (encodeLoop v n).length = n := by
  induction n generalizing v with
  | zero => rfl
  | succ n ih => simp [encodeLoop, ih]

theorem lookupByte_alphabet : ∀ d : Nat, d < 32 → lookupByte (ALPHABET.getD d 0) = d := by
  decide

theorem lookupByte_lt_32 : ∀ b : Nat, lookupByte b ≠ NO_VALUE → lookupByte b < 32 := by
  intro b hb
  by_cases h : b < 256
  · revert hb; revert h; revert b; decide
  · exfalso
    apply hb
    have hlen : LOOKUP.length = 256 := by decide
    simp [lookupByte, List.getD_eq_getElem?_getD, List.getElem?_eq_none (by omega : LOOKUP.length ≤ b)]

theorem decodeLoop_append (xs ys : List Nat) (a : Nat) :
    decodeLoop (xs ++ ys) a =
      match decodeLoop xs a with
      | Except.ok b => decodeLoop ys b
      | Except.error e => Except.error e := by
  induction xs generalizing a with
  | nil => simp [decodeLoop]
  | cons b rest ih =>
    simp only [List.cons_append, decodeLoop]
    by_cases h : lookupByte b = NO_VALUE <;> simp [h, ih]

theorem decodeLoop_encodeLoop (n : Nat) : ∀ a v : Nat,
    a * 32 ^ n + v % 32 ^ n < 2 ^ 128 →
    decodeLoop (encodeLoop v n) a = Except.ok (a * 32 ^ n + v % 32 ^ n) := by
  induction n with
  | zero =>
    intro a v _
    simp [encodeLoop, decodeLoop, Nat.mod_one]
  | succ n ih =>
    intro a v h
    have hsplit : v % 32 ^ (n + 1) = v % 32 + 32 * (v / 32 % 32 ^ n) := by
      rw [pow_succ']
      exact Nat.mod_mul
    have harith : a * 32 ^ (n + 1) + v % 32 ^ (n + 1)
        = 32 * (a * 32 ^ n + v / 32 % 32 ^ n) + v % 32 := by
      rw [hsplit]; ring
    have hx : a * 32 ^ n + v / 32 % 32 ^ n < 2 ^ 128 := by
      set x := a * 32 ^ n + v / 32 % 32 ^ n with hxdef
      have h32 : 32 * x + v % 32 < 2 ^ 128 := by rw [← harith]; exact h
      omega
    have hx32 : 32 * (a * 32 ^ n + v / 32 % 32 ^ n) + v % 32 < 2 ^ 128 := by
      rw [← harith]; exact h
    rw [encodeLoop, decodeLoop_append, shiftRight_5, ih a (v / 32) hx]
    have hmod : v % 32 < 32 := Nat.mod_lt _ (by norm_num)
    simp only [decodeLoop, and_31, lookupByte_alphabet (v % 32) hmod]
    rw [if_neg (by simp only [NO_VALUE]; omega)]
    have hshift : (a * 32 ^ n + v / 32 % 32 ^ n) <<< 5
        = 32 * (a * 32 ^ n + v / 32 % 32 ^ n) := by
      rw [Nat.shiftLeft_eq]; ring
    rw [hshift, Nat.mod_eq_of_lt (by omega)]
    have hor : 2 ^ 5 * (a * 32 ^ n + v / 32 % 32 ^ n) + v % 32
        = 2 ^ 5 * (a * 32 ^ n + v / 32 % 32 ^ n) ||| v % 32 :=
      Nat.mul_add_lt_is_or (mod32_lt v) _
    norm_num at hor
    rw [← hor, harith]

/-- C1: for every 128-bit value `v`, decoding the 26-character string produced
by `encode_to_array` succeeds and returns exactly `v`. -/
theorem roundtrip_decode_encode (v : Nat) (hv : v < 2 ^ 128) :
    decode (encode_to_array v) = Except.ok v := by
  have hlen : (encode_to_array v).length = ULYS_LEN := encodeLoop_length v ULYS_LEN
  have h : (0 : Nat) * 32 ^ 26 + v % 32 ^ 26 < 2 ^ 128 := by
    have : v % 32 ^ 26 ≤ v := Nat.mod_le _ _
    omega
  have hd := decodeLoop_encodeLoop 26 0 v h
  have hm : v % 32 ^ 26 = v :=
    Nat.mod_eq_of_lt (lt_trans hv two_pow_128_lt_32_pow_26)
  rw [hm, Nat.zero_mul, Nat.zero_add] at hd
  rw [decode, if_neg (by simp [hlen])]
  exact hd

/-- Witness for C1 at `v = 5`. -/
theorem roundtrip_decode_encode_witness :
    5 < 2 ^ 128 ∧ decode (encode_to_array 5) = Except.ok 5 :=
  ⟨by norm_num, roundtrip_decode_encode 5 (by norm_num)⟩

theorem random_eq_mod (u : Nat) : random u = u % 2 ^ 80 :=
  Nat.and_pow_two_sub_one_eq_mod u 80

theorem timestamp_succ_eq (u : Nat) (h : u % 2 ^ 80 ≠ 2 ^ 80 - 1) :
    timestamp_ms (u + 1) = timestamp_ms u := by
  unfold timestamp_ms RAND_BITS
  rw [Nat.shiftRight_eq_div_pow, Nat.shiftRight_eq_div_pow]
  have : (u + 1) / 2 ^ 80 = u / 2 ^ 80 := by omega
  rw [this]

/-- C5: `increment` returns `none` exactly when the low 80 bits are all ones;
on every other 128-bit identifier it returns `some` of the value exactly one
greater, with the 48-bit timestamp field unchanged. -/
theorem increment_spec (u : Nat) (hu : u < 2 ^ 128) :
    (increment u = none ↔ random u = MAX_RANDOM)
    ∧ (random u ≠ MAX_RANDOM →
        increment u = some (u + 1) ∧ timestamp_ms (u + 1) = timestamp_ms u) := by
  constructor
  · unfold increment random MAX_RANDOM RAND_BITS
    by_cases h : u &&& (2 ^ 80 - 1) = 2 ^ 80 - 1 <;> simp [h]
  · intro hne
    have h' : ¬(u &&& MAX_RANDOM = MAX_RANDOM) := hne
    have hne' : u % 2 ^ 80 ≠ 2 ^ 80 - 1 := by
      rw [random_eq_mod] at hne
      exact hne
    have hlt : u + 1 < 2 ^ 128 := by omega
    refine ⟨?_, timestamp_succ_eq u hne'⟩
    unfold increment
    rw [if_neg h', Nat.mod_eq_of_lt hlt]

/-- Witness for C5 at `u = 0`. -/
theorem increment_spec_witness :
    increment 0 = some 1 ∧ timestamp_ms 1 = timestamp_ms 0 :=
  (increment_spec 0 (by norm_num)).2 (by decide)

/-- C4: the generator fails with `Overflow` exactly when the supplied time is
at most the stored previous identifier's timestamp field and the previous
identifier's low 80 random bits are all ones, and on that failure the stored
previous identifier is unchanged. -/
theorem generate_overflow_spec (g : Generator) (datetime : Int) (r16 r64 : Nat) :
    ((g.generate_from_datetime_with_source datetime r16 r64).1
        = Except.error MonotonicError.Overflow
      ↔ nowMs datetime ≤ timestamp_ms g.previous ∧ random g.previous = MAX_RANDOM)
    ∧ ((g.generate_from_datetime_with_source datetime r16 r64).1
          = Except.error MonotonicError.Overflow →
        (g.generate_from_datetime_with_source datetime r16 r64).2 = g) := by
  unfold Generator.generate_from_datetime_with_source increment
  by_cases hle : nowMs datetime ≤ timestamp_ms g.previous
  · rw [if_pos hle]
    by_cases hm : random g.previous = MAX_RANDOM
    · have pm : g.previous &&& MAX_RANDOM = MAX_RANDOM := hm
      rw [if_pos pm]
      exact ⟨⟨fun _ => ⟨hle, hm⟩, fun _ => rfl⟩, fun _ => rfl⟩
    · have pm : ¬(g.previous &&& MAX_RANDOM = MAX_RANDOM) := hm
      rw [if_neg pm]
      refine ⟨⟨fun h => absurd h (by simp), fun h => absurd h.2 hm⟩, fun h => absurd h (by simp)⟩
  · rw [if_neg hle]
    refine ⟨⟨fun h => absurd h (by simp), fun h => absurd h.1 hle⟩, fun h => absurd h (by simp)⟩

/-- Witness for C4: a generator saturated at all-ones randomness with the
clock not advanced fails with `Overflow` and keeps its state. -/
theorem generate_overflow_spec_witness :
    (Generator.generate_from_datetime_with_source ⟨2 ^ 80 - 1⟩ 0 0 0).1
        = Except.error MonotonicError.Overflow
    ∧ (Generator.generate_from_datetime_with_source ⟨2 ^ 80 - 1⟩ 0 0 0).2
        = ⟨2 ^ 80 - 1⟩ := by
  have h := generate_overflow_spec ⟨2 ^ 80 - 1⟩ 0 0 0
  exact ⟨h.1.mpr (by decide), h.2 (h.1.mpr (by decide))⟩

/-- C8 as stated is false: the all-ones identifier does not encode to the
alphabet's last symbol repeated 26 times — the first character is `7`. -/
theorem all_ones_encode_counterexample :
    encode_to_array (2 ^ 128 - 1) ≠ List.replicate 26 122 := by decide

/-- C8 amended: the all-ones identifier (`2 ^ 128 - 1`) encodes to the
26-character string `7` followed by the alphabet's last symbol `z` repeated
25 times, and `increment` on it returns `none`. -/
theorem all_ones_encode_amended :
    encode_to_array (2 ^ 128 - 1) = 55 :: List.replicate 25 122
    ∧ increment (2 ^ 128 - 1) = none := by
  decide

theorem encodeLoop_mem (v n : Nat) : ∀ b ∈ encodeLoop v n, b ∈ ALPHABET := by
  induction n generalizing v with
  | zero => intro b hb; simp [encodeLoop] at hb
  | succ n ih =>
    intro b hb
    rw [encodeLoop] at hb
    rcases List.mem_append.1 hb with h | h
    · exact ih _ b h
    · have hb' : b = ALPHABET.getD (v &&& 31) 0 := by simpa using h
      subst hb'
      have hlt : v &&& 31 < 32 := by
        rw [and_31]; exact Nat.mod_lt _ (by norm_num)
      have hlen : ALPHABET.length = 32 := by decide
      rw [List.getD_eq_getElem?_getD, List.getElem?_eq_getElem (by omega), Option.getD_some]
      exact List.getElem_mem _

theorem encodeLoop_head (n : Nat) : ∀ v : Nat, n ≠ 0 →
    (encodeLoop v n).head? = some (ALPHABET.getD ((v >>> (5 * (n - 1))) &&& 31) 0) := by
  induction n with
  | zero => intro v h; exact absurd rfl h
  | succ n ih =>
    intro v _
    rw [encodeLoop]
    by_cases hn : n = 0
    · subst hn
      simp [encodeLoop]
    · rw [List.head?_append, ih (v >>> 5) hn]
      have hs : v >>> 5 >>> (5 * (n - 1)) = v >>> (5 * (n + 1 - 1)) := by
        rw [← Nat.shiftRight_add]
        congr 1
        omega
      rw [hs]
      rfl

/-- C9: for every 128-bit value, the 26-byte output of `encode_to_array`
consists only of alphabet bytes, and its first byte is one of the digits
`0`–`7` (ASCII 48–55). -/
theorem encode_output_spec (v : Nat) (hv : v < 2 ^ 128) :
    (∀ b ∈ encode_to_array v, b ∈ ALPHABET)
    ∧ (∀ b, (encode_to_array v).head? = some b → 48 ≤ b ∧ b ≤ 55) := by
  refine ⟨encodeLoop_mem v ULYS_LEN, ?_⟩
  intro b hb
  simp only [encode_to_array, ULYS_LEN] at hb
  rw [encodeLoop_head 26 v (by norm_num)] at hb
  have hd : v >>> (5 * (26 - 1)) < 8 := by
    rw [Nat.shiftRight_eq_div_pow]
    apply Nat.div_lt_of_lt_mul
    calc v < 2 ^ 128 := hv
    _ ≤ 2 ^ (5 * (26 - 1)) * 8 := by norm_num
  have hand : (v >>> (5 * (26 - 1))) &&& 31 = v >>> (5 * (26 - 1)) := by
    rw [and_31]
    exact Nat.mod_eq_of_lt (by omega)
  rw [hand] at hb
  have h8 : ∀ d : Nat, d < 8 → 48 ≤ ALPHABET.getD d 0 ∧ ALPHABET.getD d 0 ≤ 55 := by
    decide
  have hbeq := Option.some.inj hb
  have hrange := h8 _ hd
  omega

theorem lookupByte_oob (b : Nat) (hb : 256 ≤ b) : lookupByte b = NO_VALUE := by
  have hlen : LOOKUP.length = 256 := by decide
  simp [lookupByte, List.getD_eq_getElem?_getD,
    List.getElem?_eq_none (by omega : LOOKUP.length ≤ b)]

theorem decodeLoop_invalid (s : List Nat) : ∀ a : Nat,
    (∃ b ∈ s, lookupByte b = NO_VALUE) →
    decodeLoop s a = Except.error DecodeError.InvalidChar := by
  induction s with
  | nil => intro a h; simp at h
  | cons c rest ih =>
    intro a h
    rw [decodeLoop]
    by_cases hc : lookupByte c = NO_VALUE
    · simp [hc]
    · rw [if_neg hc]
      apply ih
      rcases h with ⟨b, hb, hbv⟩
      rcases List.mem_cons.1 hb with rfl | hb'
      · exact absurd hbv hc
      · exact ⟨b, hb', hbv⟩

theorem decodeLoop_isOk (s : List Nat) : ∀ a : Nat,
    (∀ b ∈ s, lookupByte b ≠ NO_VALUE) →
    ∃ v, decodeLoop s a = Except.ok v := by
  induction s with
  | nil => intro a _; exact ⟨a, rfl⟩
  | cons c rest ih =>
    intro a h
    rw [decodeLoop]
    rw [if_neg (h c (List.mem_cons_self c rest))]
    exact ih _ fun b hb => h b (List.mem_cons_of_mem c hb)

/-- C6 is contradicted by the code: the `LOOKUP` table maps only the
lowercase alphabet bytes and the non-ASCII bytes obtained from them by
adding 32 (the table generator's branch commented `lowercase` adds 32 to an
already-lowercase alphabet), so a 26-byte input of uppercase alphabet
letters (`A` = 65) is rejected with `InvalidChar`, while the non-alphabet
byte 130 is accepted.  The length branch behaves as claimed: the empty
input fails with `InvalidLength`. -/
theorem decode_case_bug :
    ((∀ b ∈ List.replicate 26 65, isAlphabetChar b = true)
      ∧ decode (List.replicate 26 65) = Except.error DecodeError.InvalidChar)
    ∧ (isAlphabetChar 130 = false
      ∧ decode (List.replicate 26 130)
          = Except.ok 142699057095877420162060319245580217707)
    ∧ decode [] = Except.error DecodeError.InvalidLength := by
  decide

theorem or_small (a d : Nat) (hd : d < 32) (h : a * 32 + d < 2 ^ 128) :
    ((a <<< 5) % 2 ^ 128) ||| d = a * 32 + d := by
  have hp : (2 : Nat) ^ 5 = 32 := rfl
  rw [Nat.shiftLeft_eq, hp, Nat.mod_eq_of_lt (by omega)]
  have hor := Nat.mul_add_lt_is_or (show d < 2 ^ 5 by omega) a
  rw [hp, Nat.mul_comm 32 a] at hor
  exact hor.symm

theorem accVal_append (s t : List Nat) (a : Nat) :
    accVal (s ++ t) a = accVal t (accVal s a) := by
  simp [accVal, List.foldl_append]

theorem le_accVal (s : List Nat) : ∀ a : Nat, a ≤ accVal s a := by
  induction s with
  | nil => intro a; exact le_refl a
  | cons d s ih =>
    intro a
    show a ≤ accVal s (a * 32 + d)
    calc a ≤ a * 32 + d := by omega
    _ ≤ accVal s (a * 32 + d) := ih _

theorem accVal_lt (s : List Nat) : ∀ a : Nat, (∀ d ∈ s, d < 32) →
    accVal s a < (a + 1) * 32 ^ s.length := by
  induction s with
  | nil => intro a _; simp [accVal]
  | cons d s ih =>
    intro a h
    have hd : d < 32 := h d (List.mem_cons_self d s)
    show accVal s (a * 32 + d) < (a + 1) * 32 ^ (s.length + 1)
    calc accVal s (a * 32 + d)
        < (a * 32 + d + 1) * 32 ^ s.length :=
          ih (a * 32 + d) (fun x hx => h x (List.mem_cons_of_mem d hx))
    _ ≤ ((a + 1) * 32) * 32 ^ s.length := Nat.mul_le_mul_right _ (by omega)
    _ = (a + 1) * 32 ^ (s.length + 1) := by ring

theorem decodeLoop_ok (s : List Nat) : ∀ a : Nat,
    (∀ b ∈ s, lookupByte b ≠ NO_VALUE) →
    accVal (s.map lookupByte) a < 2 ^ 128 →
    decodeLoop s a = Except.ok (accVal (s.map lookupByte) a) := by
  induction s with
  | nil => intro a _ _; rfl
  | cons c rest ih =>
    intro a hval hbound
    have hc := hval c (List.mem_cons_self c rest)
    have hd32 : lookupByte c < 32 := lookupByte_lt_32 c hc
    have heq : accVal ((c :: rest).map lookupByte) a
        = accVal (rest.map lookupByte) (a * 32 + lookupByte c) := rfl
    rw [heq] at hbound ⊢
    have hlt : a * 32 + lookupByte c < 2 ^ 128 :=
      lt_of_le_of_lt (le_accVal _ _) hbound
    simp only [decodeLoop]
    rw [if_neg hc, or_small a (lookupByte c) hd32 hlt]
    exact ih _ (fun b hb => hval b (List.mem_cons_of_mem c hb)) hbound

theorem encodeLoop_digits (ds : List Nat) (h : ∀ d ∈ ds, d < 32) :
    encodeLoop (accVal ds 0) ds.length = ds.map (fun d => ALPHABET.getD d 0) := by
  induction ds using List.reverseRecOn with
  | nil => rfl
  | append_singleton ds d ih =>
    have hds : ∀ x ∈ ds, x < 32 := fun x hx => h x (by simp [hx])
    have hd : d < 32 := h d (by simp)
    have hlen : (ds ++ [d]).length = ds.length + 1 := by simp
    rw [hlen]
    have hval : accVal (ds ++ [d]) 0 = accVal ds 0 * 32 + d := by
      rw [accVal_append]; rfl
    rw [hval, encodeLoop]
    have hdiv : (accVal ds 0 * 32 + d) >>> 5 = accVal ds 0 := by
      rw [shiftRight_5]; omega
    have hmod : (accVal ds 0 * 32 + d) &&& 31 = d := by
      rw [and_31]; omega
    rw [hdiv, hmod, ih hds]
    simp

theorem alphabet_bytes : ∀ b ∈ ALPHABET,
    lookupByte b ≠ NO_VALUE ∧ lookupByte b < 32
      ∧ ALPHABET.getD (lookupByte b) 0 = b ∧ toLowerByte b = b := by
  decide

theorem digit_bytes : ∀ b : Nat, 48 ≤ b → b ≤ 55 → lookupByte b < 8 := by
  decide

/-- C7 as stated is false on the code, for two independent reasons: the
all-`z` string is made of alphabet characters and decodes successfully, but
its 130-bit value wraps modulo `2 ^ 128`, so re-encoding yields `7zzz...z`,
not the original string; and a string of uppercase alphabet letters is
rejected by `decode` outright (see C6), so `encode(decode(s))` cannot
reproduce its lowercasing. -/
theorem encode_decode_counterexample :
    ((∀ b ∈ List.replicate 26 122, isAlphabetChar b = true)
      ∧ decode (List.replicate 26 122) = Except.ok (2 ^ 128 - 1)
      ∧ encode_to_array (2 ^ 128 - 1) ≠ (List.replicate 26 122).map toLowerByte)
    ∧ ((∀ b ∈ List.replicate 26 65, isAlphabetChar b = true)
      ∧ decode (List.replicate 26 65) = Except.error DecodeError.InvalidChar) := by
  decide

/-- C7 amended: for every 26-character string `s` whose bytes are all drawn
from the (lowercase) Base32 alphabet and whose first character is one of
`0`–`7`, decoding succeeds and re-encoding the decoded value reproduces `s`
(which is its own lowercasing). -/
theorem encode_decode_amended (s : List Nat) (hlen : s.length = 26)
    (hmem : ∀ b ∈ s, b ∈ ALPHABET)
    (hfirst : ∀ b, s.head? = some b → 48 ≤ b ∧ b ≤ 55) :
    ∃ v, decode s = Except.ok v ∧ encode_to_array v = s
      ∧ s.map toLowerByte = s := by
  have hval : ∀ b ∈ s, lookupByte b ≠ NO_VALUE :=
    fun b hb => (alphabet_bytes b (hmem b hb)).1
  have hd32 : ∀ d ∈ s.map lookupByte, d < 32 := by
    intro d hd
    rcases List.mem_map.1 hd with ⟨b, hb, rfl⟩
    exact (alphabet_bytes b (hmem b hb)).2.1
  have hbound : accVal (s.map lookupByte) 0 < 2 ^ 128 := by
    cases s with
    | nil => simp at hlen
    | cons b0 rest =>
      have h0 := hfirst b0 rfl
      have hd0 : lookupByte b0 < 8 := digit_bytes b0 h0.1 h0.2
      have hlen' : (rest.map lookupByte).length = 25 := by
        simp at hlen ⊢
        omega
      have heq : accVal ((b0 :: rest).map lookupByte) 0
          = accVal (rest.map lookupByte) (lookupByte b0) := by
        show accVal (rest.map lookupByte) (0 * 32 + lookupByte b0)
          = accVal (rest.map lookupByte) (lookupByte b0)
        norm_num
      rw [heq]
      calc accVal (rest.map lookupByte) (lookupByte b0)
          < (lookupByte b0 + 1) * 32 ^ (rest.map lookupByte).length :=
            accVal_lt _ _ (fun d hd =>
              hd32 d (by simp at hd ⊢; tauto))
      _ ≤ 8 * 32 ^ (rest.map lookupByte).length := by
            apply Nat.mul_le_mul_right
            omega
      _ = 2 ^ 128 := by rw [hlen']; norm_num
  refine ⟨accVal (s.map lookupByte) 0, ?_, ?_, ?_⟩
  · rw [decode, if_neg (by simp [ULYS_LEN, hlen])]
    exact decodeLoop_ok s 0 hval hbound
  · have hlen2 : (s.map lookupByte).length = 26 := by simp [hlen]
    have hdig := encodeLoop_digits (s.map lookupByte) hd32
    rw [hlen2] at hdig
    show encodeLoop (accVal (s.map lookupByte) 0) ULYS_LEN = s
    rw [show ULYS_LEN = 26 from rfl, hdig, List.map_map]
    have hid : ∀ b ∈ s, ((fun d => ALPHABET.getD d 0) ∘ lookupByte) b = id b :=
      fun b hb => (alphabet_bytes b (hmem b hb)).2.2.1
    rw [List.map_congr_left hid, List.map_id]
  · have hid : ∀ b ∈ s, toLowerByte b = id b :=
      fun b hb => (alphabet_bytes b (hmem b hb)).2.2.2
    rw [List.map_congr_left hid, List.map_id]

/-- Witness for C7 (amended) at the all-zeros string. -/
theorem encode_decode_amended_witness :
    ∃ v, decode (List.replicate 26 48) = Except.ok v
      ∧ encode_to_array v = List.replicate 26 48
      ∧ (List.replicate 26 48).map toLowerByte = List.replicate 26 48 :=
  encode_decode_amended (List.replicate 26 48) (by decide) (by decide)
    (by
      intro b hb
      have h48 : (List.replicate 26 48).head? = some 48 := by decide
      rw [h48] at hb
      injection hb with hb'
      omega)

theorem lex_append_of_lex {r : Nat → Nat → Prop} :
    ∀ {xs ys : List Nat}, List.Lex r xs ys → xs.length = ys.length →
      ∀ p q : List Nat, List.Lex r (xs ++ p) (ys ++ q) := by
  intro xs ys h
  induction h with
  | nil => intro hlen _ _; simp at hlen
  | @rel a l₁ b l₂ hab => intro _ p q; exact List.Lex.rel hab
  | @cons a l₁ l₂ h ih =>
    intro hlen p q
    exact List.Lex.cons (ih (by simpa using hlen) p q)

theorem alphabet_mono : ∀ i : Nat, i < 32 → ∀ j : Nat, j < 32 → i < j →
    ALPHABET.getD i 0 < ALPHABET.getD j 0 := by
  decide

theorem encodeLoop_lex (n : Nat) : ∀ a b : Nat, a < b → b < 32 ^ n →
    List.Lex (· < ·) (encodeLoop a n) (encodeLoop b n) := by
  induction n with
  | zero =>
    intro a b hab hb
    simp at hb
    omega
  | succ n ih =>
    intro a b hab hb
    rw [encodeLoop]
    rw [encodeLoop]
    rw [shiftRight_5, shiftRight_5]
    have hdivle : a / 32 ≤ b / 32 := Nat.div_le_div_right (le_of_lt hab)
    rcases lt_or_eq_of_le hdivle with hlt | heq
    · have hblt : b / 32 < 32 ^ n := by
        rw [pow_succ] at hb
        omega
      exact lex_append_of_lex (ih (a / 32) (b / 32) hlt hblt)
        (by rw [encodeLoop_length, encodeLoop_length]) _ _
    · have hmod : a % 32 < b % 32 := by
        have h1 := Nat.div_add_mod a 32
        have h2 := Nat.div_add_mod b 32
        omega
      rw [heq]
      refine List.Lex.append_left _ ?_ _
      refine List.Lex.rel ?_
      rw [and_31, and_31]
      exact alphabet_mono _ (Nat.mod_lt _ (by norm_num)) _
        (Nat.mod_lt _ (by norm_num)) hmod

theorem from_parts_eq (t r : Nat) :
    from_parts t r = (t % 2 ^ 48) * 2 ^ 80 + r % 2 ^ 80 := by
  unfold from_parts TIME_BITS RAND_BITS
  rw [Nat.and_pow_two_sub_one_eq_mod, Nat.and_pow_two_sub_one_eq_mod]
  show (t % 2 ^ 48) <<< 80 ||| r % 2 ^ 80 = (t % 2 ^ 48) * 2 ^ 80 + r % 2 ^ 80
  rw [Nat.shiftLeft_eq]
  have h := Nat.mul_add_lt_is_or
    (show r % 2 ^ 80 < 2 ^ 80 from Nat.mod_lt _ (by norm_num)) (t % 2 ^ 48)
  rw [Nat.mul_comm (2 ^ 80) (t % 2 ^ 48)] at h
  exact h.symm

theorem random_from_parts (t r : Nat) : random (from_parts t r) = r % 2 ^ 80 := by
  rw [random_eq_mod, from_parts_eq]
  omega

theorem from_parts_lt (t r : Nat) : from_parts t r < 2 ^ 128 := by
  rw [from_parts_eq]
  have h1 : t % 2 ^ 48 < 2 ^ 48 := Nat.mod_lt _ (by norm_num)
  have h2 : r % 2 ^ 80 < 2 ^ 80 := Nat.mod_lt _ (by norm_num)
  omega

/-- C2: encoding is strictly monotone with respect to the lexicographic
(byte-wise) order of the output: `a < b` (as 128-bit values) implies
`encode_to_array a` is lexicographically below `encode_to_array b`; in
particular identifiers built by `from_parts` with equal timestamps and
smaller random field compare the same way as integers and as strings. -/
theorem encode_lex_mono :
    (∀ a b : Nat, a < 2 ^ 128 → b < 2 ^ 128 → a < b →
      List.Lex (· < ·) (encode_to_array a) (encode_to_array b))
    ∧ (∀ t r1 r2 : Nat,
        random (from_parts t r1) < random (from_parts t r2) →
        from_parts t r1 < from_parts t r2
          ∧ List.Lex (· < ·) (encode_to_array (from_parts t r1))
              (encode_to_array (from_parts t r2))) := by
  have main : ∀ a b : Nat, a < 2 ^ 128 → b < 2 ^ 128 → a < b →
      List.Lex (· < ·) (encode_to_array a) (encode_to_array b) := by
    intro a b _ hb hab
    exact encodeLoop_lex 26 a b hab (lt_trans hb two_pow_128_lt_32_pow_26)
  refine ⟨main, ?_⟩
  intro t r1 r2 hr
  rw [random_from_parts, random_from_parts] at hr
  have hlt : from_parts t r1 < from_parts t r2 := by
    rw [from_parts_eq, from_parts_eq]
    omega
  exact ⟨hlt, main _ _ (from_parts_lt t r1) (from_parts_lt t r2) hlt⟩

/-- Witness for C2 with `t = 0`, `r1 = 0`, `r2 = 1`. -/
theorem encode_lex_mono_witness :
    from_parts 0 0 < from_parts 0 1
    ∧ List.Lex (· < ·) (encode_to_array (from_parts 0 0))
        (encode_to_array (from_parts 0 1)) :=
  encode_lex_mono.2 0 0 1 (by decide)

theorem increment_some (p w : Nat) (h : increment p = some w) :
    w = (p + 1) % 2 ^ 128 ∧ p &&& MAX_RANDOM ≠ MAX_RANDOM := by
  unfold increment at h
  by_cases hc : p &&& MAX_RANDOM = MAX_RANDOM
  · rw [if_pos hc] at h
    cases h
  · rw [if_neg hc] at h
    exact ⟨(Option.some.inj h).symm, hc⟩

theorem pack_lt (m l : Nat) (hm : m < 2 ^ 64) (hl : l < 2 ^ 64) :
    (m <<< 64) ||| l < 2 ^ 128 := by
  apply Nat.or_lt_two_pow
  · rw [Nat.shiftLeft_eq]
    omega
  · omega

theorem from_datetime_lt (datetime : Int) (r16 r64 : Nat) (h64 : r64 < 2 ^ 64) :
    from_datetime_with_source datetime r16 r64 < 2 ^ 128 := by
  unfold from_datetime_with_source
  exact pack_lt _ _ (Nat.mod_lt _ (by norm_num)) h64

theorem generate_ok_state (g : Generator) (datetime : Int) (r16 r64 : Nat)
    (u : Nat) (g' : Generator) (h64 : r64 < 2 ^ 64)
    (h : g.generate_from_datetime_with_source datetime r16 r64 = (Except.ok u, g')) :
    g' = ⟨u⟩ ∧ u < 2 ^ 128 := by
  unfold Generator.generate_from_datetime_with_source at h
  by_cases hle : nowMs datetime ≤ timestamp_ms g.previous
  · rw [if_pos hle] at h
    cases hinc : increment g.previous with
    | none =>
      rw [hinc] at h
      injection h with he _
      cases he
    | some w =>
      rw [hinc] at h
      injection h with he hs
      injection he with hu
      refine ⟨?_, ?_⟩
      · rw [← hs, hu]
      · rw [← hu, (increment_some g.previous w hinc).1]
        exact Nat.mod_lt _ (by norm_num)
  · rw [if_neg hle] at h
    injection h with he hs
    injection he with hu
    refine ⟨?_, ?_⟩
    · rw [← hs, hu]
    · rw [← hu]
      exact from_datetime_lt datetime r16 r64 h64

/-- C3: if a `generate` call returned an identifier `u1` whose 48-bit
timestamp field equals the supplied time, and the low 80 bits of `u1` are not
all ones, then a second `generate` call with the same supplied time succeeds
and returns exactly `u1 + 1`, with the same timestamp field. -/
theorem generate_same_ms_increment (g g1 : Generator) (datetime : Int)
    (r16 r64 r16' r64' : Nat) (u1 : Nat) (h64 : r64 < 2 ^ 64)
    (h1 : g.generate_from_datetime_with_source datetime r16 r64 = (Except.ok u1, g1))
    (ht : timestamp_ms u1 = nowMs datetime)
    (hrand : random u1 ≠ MAX_RANDOM) :
    g1.generate_from_datetime_with_source datetime r16' r64'
        = (Except.ok (u1 + 1), ⟨u1 + 1⟩)
      ∧ timestamp_ms (u1 + 1) = timestamp_ms u1 := by
  obtain ⟨hg1, hu1⟩ := generate_ok_state g datetime r16 r64 u1 g1 h64 h1
  subst hg1
  have hucode : u1 &&& MAX_RANDOM ≠ MAX_RANDOM := hrand
  have hmod : u1 % 2 ^ 80 ≠ 2 ^ 80 - 1 := by
    rw [random_eq_mod] at hrand
    exact hrand
  have hlt : u1 + 1 < 2 ^ 128 := by omega
  refine ⟨?_, timestamp_succ_eq u1 hmod⟩
  unfold Generator.generate_from_datetime_with_source
  rw [if_pos (show nowMs datetime ≤ timestamp_ms u1 from le_of_eq ht.symm)]
  show (match increment u1 with
    | some next => (Except.ok next, (⟨next⟩ : Generator))
    | none => (Except.error MonotonicError.Overflow, (⟨u1⟩ : Generator)))
    = (Except.ok (u1 + 1), ⟨u1 + 1⟩)
  unfold increment
  rw [if_neg hucode, Nat.mod_eq_of_lt hlt]

/-- Witness for C3: starting from the nil generator at time 0, the first call
returns 1 and the second call returns 2 with the same timestamp field. -/
theorem generate_same_ms_increment_witness :
    Generator.generate_from_datetime_with_source ⟨1⟩ 0 0 0 = (Except.ok 2, ⟨2⟩)
      ∧ timestamp_ms 2 = timestamp_ms 1 :=
  generate_same_ms_increment ⟨0⟩ ⟨1⟩ 0 0 0 0 0 1 (by norm_num) (by decide)
    (by decide) (by decide)

/-- C10: a pre-epoch datetime is clamped to time 0: `from_datetime_with_source`
yields a zero 48-bit timestamp field, and `generate_from_datetime_with_source`
behaves exactly as if the supplied time were 0. -/
theorem pre_epoch_spec (datetime : Int) (hneg : datetime < 0) (r16 r64 : Nat)
    (h16 : r16 < 2 ^ 16) (h64 : r64 < 2 ^ 64) (g : Generator) (r16' r64' : Nat) :
    timestamp_ms (from_datetime_with_source datetime r16 r64) = 0
    ∧ g.generate_from_datetime_with_source datetime r16' r64'
        = g.generate_from_datetime_with_source 0 r16' r64' := by
  have hnow : nowMs datetime = 0 := Int.toNat_of_nonpos (le_of_lt hneg)
  constructor
  · unfold from_datetime_with_source timestamp_ms
    rw [hnow]
    show ((((0 &&& (2 ^ TIME_BITS - 1)) <<< 16 ||| r16) % 2 ^ 64) <<< 64 ||| r64)
        >>> RAND_BITS % 2 ^ 64 = 0
    rw [Nat.zero_and, Nat.zero_shiftLeft, Nat.zero_or,
      Nat.mod_eq_of_lt (show r16 < 2 ^ 64 by omega)]
    have hval : (r16 <<< 64) ||| r64 < 2 ^ 80 := by
      apply Nat.or_lt_two_pow
      · rw [Nat.shiftLeft_eq]
        omega
      · omega
    show ((r16 <<< 64) ||| r64) >>> 80 % 2 ^ 64 = 0
    rw [Nat.shiftRight_eq_div_pow, Nat.div_eq_of_lt hval]
    rfl
  · unfold Generator.generate_from_datetime_with_source
    rw [hnow]
    rw [show nowMs (0 : Int) = 0 from rfl]
    rw [if_pos (Nat.zero_le _), if_pos (Nat.zero_le _)]

/-- Witness for C10 at `datetime = -5`. -/
theorem pre_epoch_spec_witness :
    timestamp_ms (from_datetime_with_source (-5) 7 9) = 0
    ∧ Generator.generate_from_datetime_with_source ⟨3⟩ (-5) 7 9
        = Generator.generate_from_datetime_with_source ⟨3⟩ 0 7 9 :=
  pre_epoch_spec (-5) (by norm_num) 7 9 (by norm_num) (by norm_num) ⟨3⟩ 7 9

/-- Witness for C9 at `v = 3`: the head byte of the encoding is `48`. -/
theorem encode_output_spec_witness :
    48 ∈ ALPHABET ∧ 48 ≤ 48 ∧ 48 ≤ 55 :=
  ⟨(encode_output_spec 3 (by norm_num)).1 48 (by decide),
   (encode_output_spec 3 (by norm_num)).2 48 (by decide)⟩

end Ulys
